import Mathlib

/-!
Verification of the linear softmax classifier with L2 regularization from the
notebook `P02-C05-regularization-scratch.ipynb`.

The numeric code of the notebook (model `net`, `cross_entropy`, `SGD`,
`evaluate_accuracy`, `l2_penalty`, and the two training loops) is embedded
shallowly over the real numbers: an `NDArray` of shape `(n, 784)` becomes a
function `Fin n → Fin 784 → ℝ`, and the in-place mutation of the parameters
and of the data iterators becomes explicit state passing.
-/

namespace MXReg

noncomputable section

/-- The model parameters, from `W = nd.random_normal(shape=(784,10))`,
`b = nd.random_normal(shape=10)`, `params = [W, b]`. -/
structure Parameters where
  W : Fin 784 → Fin 10 → ℝ
  b : Fin 10 → ℝ

/-- `y_linear = nd.dot(X, W) + b` inside `net`. -/
def yLinear {n : ℕ} (p : Parameters) (X : Fin n → Fin 784 → ℝ) :
    Fin n → Fin 10 → ℝ :=
  fun i j => (∑ k, X i k * p.W k j) + p.b j

/-- `nd.softmax(·, axis=1)` on one row: `exp (z j) / ∑ k, exp (z k)`. -/
def softmaxRow (z : Fin 10 → ℝ) : Fin 10 → ℝ :=
  fun j => Real.exp (z j) / ∑ k, Real.exp (z k)

/-- `net(X)`: the affine transform followed by the row-wise softmax. -/
def net {n : ℕ} (p : Parameters) (X : Fin n → Fin 784 → ℝ) :
    Fin n → Fin 10 → ℝ :=
  fun i => softmaxRow (yLinear p X i)

/-- `cross_entropy(yhat, y) = - nd.sum(y * nd.log(yhat), axis=0, exclude=True)`:
for a 2-dimensional array, `exclude=True` sums over every axis except axis 0,
so the result is the length-`n` vector of per-row sums over the class axis. -/
def cross_entropy {n : ℕ} (yhat y : Fin n → Fin 10 → ℝ) : Fin n → ℝ :=
  fun i => -(∑ j, y i j * Real.log (yhat i j))

/-- `nd.one_hot(label, 10)`. -/
def oneHot {n : ℕ} (label : Fin n → Fin 10) : Fin n → Fin 10 → ℝ :=
  fun i j => if label i = j then 1 else 0

/-- `l2_penalty(params)`: `penalty = nd.zeros(shape=1)`, then
`penalty = penalty + nd.sum(param ** 2)` for each of `params = [W, b]`. -/
def l2_penalty (p : Parameters) : ℝ :=
  (0 + ∑ k, ∑ j, p.W k j ^ 2) + ∑ j, p.b j ^ 2

/-- C1: for every batch `X` of flattened 784-dimensional vectors and current
parameters, `net X` is the row-wise softmax of `X·W + b`; every entry is
strictly positive and every row sums to `1`. -/
theorem net_is_rowwise_softmax {n : ℕ} (p : Parameters) (X : Fin n → Fin 784 → ℝ) :
    (∀ i, net p X i = softmaxRow (yLinear p X i)) ∧
    (∀ i j, 0 < net p X i j) ∧
    (∀ i, ∑ j, net p X i j = 1) := by
  have hS : ∀ i, 0 < ∑ k, Real.exp (yLinear p X i k) := fun i =>
    Finset.sum_pos (fun k _ => Real.exp_pos _) Finset.univ_nonempty
  refine ⟨fun i => rfl, ?_, ?_⟩
  · intro i j
    exact div_pos (Real.exp_pos _) (hS i)
  · intro i
    show ∑ j, softmaxRow (yLinear p X i) j = 1
    unfold softmaxRow
    rw [← Finset.sum_div, div_self (ne_of_gt (hS i))]

/-- C2: on a one-hot label matrix, the `i`-th entry of `cross_entropy` is the
negative logarithm of the probability assigned to sample `i`'s true class. -/
theorem cross_entropy_one_hot {n : ℕ} (yhat : Fin n → Fin 10 → ℝ)
    (label : Fin n → Fin 10) :
    ∀ i, cross_entropy yhat (oneHot label) i = -Real.log (yhat i (label i)) := by
  intro i
  unfold cross_entropy oneHot
  rw [neg_inj.symm, neg_neg, neg_neg]
  rw [show (∑ j, (if label i = j then (1 : ℝ) else 0) * Real.log (yhat i j)) =
      ∑ j, (if label i = j then Real.log (yhat i j) else 0) from
    Finset.sum_congr rfl fun j _ => by split <;> simp]
  simp [Finset.sum_ite_eq]

/-- C4: `l2_penalty` is the sum of the squares of every parameter element,
weights and biases together, and it is non-negative. -/
theorem l2_penalty_sum_of_squares (p : Parameters) :
    l2_penalty p = (∑ k, ∑ j, p.W k j ^ 2) + (∑ j, p.b j ^ 2) ∧
    0 ≤ l2_penalty p := by
  constructor
  · simp [l2_penalty]
  · unfold l2_penalty
    positivity

/-- The gradient buffers attached to `params = [W, b]` by `param.attach_grad()`
and filled by `loss.backward()` (read as `param.grad` inside `SGD`). -/
structure ParamGrads where
  gW : Fin 784 → Fin 10 → ℝ
  gb : Fin 10 → ℝ

/-- `SGD(params, lr)`: `for param in params: param[:] = param - lr * param.grad`. -/
def SGD (p : Parameters) (g : ParamGrads) (lr : ℝ) : Parameters :=
  ⟨fun k j => p.W k j - lr * g.gW k j, fun j => p.b j - lr * g.gb j⟩

/-- Modelled from the spec: the reverse-mode autograd gradient of the summed
cross-entropy-of-softmax loss with respect to `W` (the differentiation engine
`autograd` is mxnet library code, absent from the repository). Spec 9 gives
the closed form: predicted probabilities minus one-hot labels,
matrix-multiplied with the inputs. -/
def gradW {n : ℕ} (p : Parameters) (X : Fin n → Fin 784 → ℝ)
    (y : Fin n → Fin 10 → ℝ) : Fin 784 → Fin 10 → ℝ :=
  fun k j => ∑ i, X i k * (net p X i j - y i j)

/-- Modelled from the spec: the autograd gradient of the summed cross-entropy
loss with respect to the bias `b`, closed form per spec 9. -/
def gradB {n : ℕ} (p : Parameters) (X : Fin n → Fin 784 → ℝ)
    (y : Fin n → Fin 10 → ℝ) : Fin 10 → ℝ :=
  fun j => ∑ i, (net p X i j - y i j)

/-- Modelled from the spec: gradient of the regularized loss
`nd.sum(cross_entropy(...)) + lam * l2_penalty(params)` with respect to `W`:
the cross-entropy part plus the derivative `lam * 2 * W` of the penalty. -/
def gradWReg {n : ℕ} (lam : ℝ) (p : Parameters) (X : Fin n → Fin 784 → ℝ)
    (y : Fin n → Fin 10 → ℝ) : Fin 784 → Fin 10 → ℝ :=
  fun k j => gradW p X y k j + lam * (2 * p.W k j)

/-- Modelled from the spec: gradient of the regularized loss with respect to
`b`: the cross-entropy part plus the derivative `lam * 2 * b` of the penalty. -/
def gradBReg {n : ℕ} (lam : ℝ) (p : Parameters) (X : Fin n → Fin 784 → ℝ)
    (y : Fin n → Fin 10 → ℝ) : Fin 10 → ℝ :=
  fun j => gradB p X y j + lam * (2 * p.b j)

/-- A batch produced by the data iterator: `data` reshaped to `(n, 784)` and
the integer class labels (`nd.one_hot` is applied to them by the loops). -/
structure Batch where
  n : ℕ
  data : Fin n → Fin 784 → ℝ
  label : Fin n → Fin 10

/-- One batch of the unregularized training loop (cell 11): forward pass,
`loss = cross_entropy(output, label_one_hot)`, `loss.backward()`,
`SGD(params, .001)`. -/
def stepUnreg (p : Parameters) (B : Batch) : Parameters :=
  SGD p ⟨gradW p B.data (oneHot B.label), gradB p B.data (oneHot B.label)⟩ (0.001)

/-- One batch of the L2-regularized training loop (cell 18): forward pass,
`loss = nd.sum(cross_entropy(output, label_one_hot)) + l2_strength * l2_penalty(params)`,
`loss.backward()`, `SGD(params, .001)`. -/
def stepReg (lam : ℝ) (p : Parameters) (B : Batch) : Parameters :=
  SGD p ⟨gradWReg lam p B.data (oneHot B.label), gradBReg lam p B.data (oneHot B.label)⟩
    (0.001)

/-- `nd.mean(loss)` in the unregularized loop, where `loss` is the length-`n`
vector of per-sample cross-entropies. -/
def lossUnreg (p : Parameters) (B : Batch) : ℝ :=
  (∑ i, cross_entropy (net p B.data) (oneHot B.label) i) / B.n

/-- `nd.mean(loss)` in the regularized loop, where `loss` is the 1-element
scalar `nd.sum(cross_entropy(...)) + l2_strength * l2_penalty(params)` (the
mean of a 1-element array is the element itself). -/
def lossReg (lam : ℝ) (p : Parameters) (B : Batch) : ℝ :=
  (∑ i, cross_entropy (net p B.data) (oneHot B.label) i) + lam * l2_penalty p

/-- C5: with regularization strength `lam = 0`, one batch step of the
regularized loop performs exactly the same parameter update as one batch step
of the unregularized loop on the same batch and starting parameters, and the
penalty term contributes nothing to either gradient. -/
theorem stepReg_zero_eq_stepUnreg {n : ℕ} (p : Parameters) (B : Batch)
    (X : Fin n → Fin 784 → ℝ) (y : Fin n → Fin 10 → ℝ) :
    stepReg 0 p B = stepUnreg p B ∧
    gradWReg 0 p X y = gradW p X y ∧
    gradBReg 0 p X y = gradB p X y := by
  refine ⟨?_, ?_, ?_⟩
  · simp [stepReg, stepUnreg, SGD, gradWReg, gradBReg]
  · funext k j
    simp [gradWReg]
  · funext j
    simp [gradBReg]

/-- One epoch of either training loop:
`for i, batch in enumerate(train_data): ...`, threading the parameters and
the moving loss; `lossOf p B` is the value of `nd.mean(loss)` computed on the
pre-update parameters, as in the source, and the update `step p B` is applied
before the moving-loss bookkeeping of the next iteration. -/
def epochLoop (step : Parameters → Batch → Parameters)
    (lossOf : Parameters → Batch → ℝ) :
    ℕ → Parameters → ℝ → List Batch → Parameters × ℝ
  | _, p, ml, [] => (p, ml)
  | i, p, ml, B :: rest =>
      epochLoop step lossOf (i + 1) (step p B)
        (if i = 0 then lossOf p B else 0.99 * ml + 0.01 * lossOf p B) rest

/-- `for e in range(epochs)`: run the epochs, threading parameters and moving
loss; each epoch restarts its batch counter at `i = 0` (`enumerate`). -/
def runEpochs (step : Parameters → Batch → Parameters)
    (lossOf : Parameters → Batch → ℝ) :
    ℕ → Parameters → ℝ → List Batch → Parameters × ℝ
  | 0, p, ml, _ => (p, ml)
  | e + 1, p, ml, bs =>
      let r := epochLoop step lossOf 0 p ml bs
      runEpochs step lossOf e r.1 r.2 bs

/-- A full training run: `moving_loss = 0.` followed by the epoch loop. -/
def trainRun (step : Parameters → Batch → Parameters)
    (lossOf : Parameters → Batch → ℝ)
    (e : ℕ) (p : Parameters) (bs : List Batch) : Parameters × ℝ :=
  runEpochs step lossOf e p 0 bs

/-- The unregularized training loop of cell 11. -/
def trainUnreg (e : ℕ) (p : Parameters) (bs : List Batch) : Parameters × ℝ :=
  trainRun stepUnreg lossUnreg e p bs

/-- The L2-regularized training loop of cell 18 (`l2_strength` as `lam`). -/
def trainReg (lam : ℝ) (e : ℕ) (p : Parameters) (bs : List Batch) :
    Parameters × ℝ :=
  trainRun (stepReg lam) (lossReg lam) e p bs

/-- The parameters at the end of an epoch are the fold of the per-batch
update over the batch list: the update runs once after every batch. -/
lemma epochLoop_fst (step : Parameters → Batch → Parameters)
    (lossOf : Parameters → Batch → ℝ) :
    ∀ (bs : List Batch) (i : ℕ) (p : Parameters) (ml : ℝ),
      (epochLoop step lossOf i p ml bs).1 = bs.foldl step p := by
  intro bs
  induction bs with
  | nil => intro i p ml; rfl
  | cons B rest ih =>
      intro i p ml
      show (epochLoop step lossOf (i + 1) (step p B) _ rest).1 = _
      rw [ih, List.foldl_cons]

/-- C6: `SGD(params, lr)` replaces each parameter element by
`parameter - lr * gradient`, both training loops perform their per-batch
update through `SGD` with the fixed learning rate `0.001` (no momentum, no
decay schedule), and the update is applied once after every batch. -/
theorem SGD_update_rule (p : Parameters) (g : ParamGrads) (lr : ℝ) :
    ((SGD p g lr).W = fun k j => p.W k j - lr * g.gW k j) ∧
    ((SGD p g lr).b = fun j => p.b j - lr * g.gb j) ∧
    (∀ (q : Parameters) (B : Batch),
      stepUnreg q B =
        SGD q ⟨gradW q B.data (oneHot B.label), gradB q B.data (oneHot B.label)⟩
          (0.001)) ∧
    (∀ (lam : ℝ) (q : Parameters) (B : Batch),
      stepReg lam q B =
        SGD q ⟨gradWReg lam q B.data (oneHot B.label),
               gradBReg lam q B.data (oneHot B.label)⟩ (0.001)) ∧
    (∀ (step : Parameters → Batch → Parameters)
       (lossOf : Parameters → Batch → ℝ) (i : ℕ) (q : Parameters) (ml : ℝ)
       (bs : List Batch),
      (epochLoop step lossOf i q ml bs).1 = bs.foldl step q) :=
  ⟨rfl, rfl, fun _ _ => rfl, fun _ _ _ => rfl,
    fun step lossOf i q ml bs => epochLoop_fst step lossOf bs i q ml⟩

/-- An `mx.io.NDArrayIter`: a fixed list of batches (the shuffling happens
once, at construction) together with a cursor marking how many batches have
already been consumed. `reset()` puts the cursor back to the start; iterating
consumes the remaining batches. -/
structure DataIter where
  batches : List Batch
  cursor : ℕ

/-- `data_iterator.reset()`. -/
def DataIter.reset (it : DataIter) : DataIter :=
  ⟨it.batches, 0⟩

/-- The mutable state read and written by `evaluate_accuracy`: the global
parameters `W`, `b` (read through `net`) and the data iterator it consumes. -/
structure ProgState where
  params : Parameters
  iter : DataIter

/-- `nd.argmax(·, axis=1)` on one row: the first index attaining the maximum,
scanning left to right and replacing the current best only on a strictly
larger value. -/
def argmaxAux (v : Fin 10 → ℝ) : List (Fin 10) → Fin 10 → Fin 10
  | [], best => best
  | j :: rest, best => argmaxAux v rest (if v best < v j then j else best)

/-- `nd.argmax(output, axis=1)` for one sample row. -/
def argmaxRow (v : Fin 10 → ℝ) : Fin 10 :=
  argmaxAux v (List.finRange 10) 0

/-- `nd.sum(predictions == label)` for one batch: the number of samples whose
argmax-predicted class equals the true label. -/
def batchCorrect (p : Parameters) (B : Batch) : ℕ :=
  (Finset.univ.filter fun i => argmaxRow (net p B.data i) = B.label i).card

/-- The `for` loop of `evaluate_accuracy`, accumulating
`numerator += nd.sum(predictions == label)` and
`denominator += data.shape[0]` over the remaining batches. -/
def evalLoop (p : Parameters) : List Batch → ℝ → ℝ → ℝ × ℝ
  | [], num, den => (num, den)
  | B :: rest, num, den =>
      evalLoop p rest (num + (batchCorrect p B : ℝ)) (den + (B.n : ℝ))

/-- `evaluate_accuracy(data_iterator, net)`: start `numerator` and
`denominator` at `0.`, reset the iterator, loop over its batches, and return
`(numerator / denominator).asscalar()`. The iterator ends fully consumed; the
parameters are only read. -/
def evaluate_accuracy (s : ProgState) : ℝ × ProgState :=
  let it := s.iter.reset
  let nd := evalLoop s.params (it.batches.drop it.cursor) 0 0
  (nd.1 / nd.2, ⟨s.params, ⟨it.batches, it.batches.length⟩⟩)

/-- Total number of correctly classified samples over a list of batches. -/
def totalCorrect (p : Parameters) (bs : List Batch) : ℕ :=
  (bs.map fun B => batchCorrect p B).sum

/-- Total number of samples presented by a list of batches. -/
def totalCount (bs : List Batch) : ℕ :=
  (bs.map fun B => B.n).sum

lemma evalLoop_eq (p : Parameters) :
    ∀ (bs : List Batch) (num den : ℝ),
      evalLoop p bs num den =
        (num + (totalCorrect p bs : ℝ), den + (totalCount bs : ℝ)) := by
  intro bs
  induction bs with
  | nil => intro num den; simp [evalLoop, totalCorrect, totalCount]
  | cons B rest ih =>
      intro num den
      show evalLoop p rest _ _ = _
      rw [ih]
      simp only [totalCorrect, totalCount, List.map_cons, List.sum_cons,
        Nat.cast_add, Prod.mk.injEq]
      constructor <;> ring

lemma totalCorrect_le_totalCount (p : Parameters) (bs : List Batch) :
    totalCorrect p bs ≤ totalCount bs := by
  induction bs with
  | nil => simp [totalCorrect, totalCount]
  | cons B rest ih =>
      have hB : batchCorrect p B ≤ B.n := by
        have := Finset.card_filter_le (Finset.univ : Finset (Fin B.n))
          (fun i => argmaxRow (net p B.data i) = B.label i)
        simpa [batchCorrect] using this
      simp only [totalCorrect, totalCount, List.map_cons, List.sum_cons]
      exact Nat.add_le_add hB ih

/-- C3: `evaluate_accuracy` returns exactly the number of correctly
classified samples divided by the total number of samples presented across
the iterator's batches, and (when at least one sample is presented) the
returned value lies in `[0, 1]`. -/
theorem evaluate_accuracy_exact_fraction (s : ProgState)
    (h : 0 < totalCount s.iter.batches) :
    (evaluate_accuracy s).1 =
      (totalCorrect s.params s.iter.batches : ℝ) /
        (totalCount s.iter.batches : ℝ) ∧
    0 ≤ (evaluate_accuracy s).1 ∧ (evaluate_accuracy s).1 ≤ 1 := by
  have hval : (evaluate_accuracy s).1 =
      (totalCorrect s.params s.iter.batches : ℝ) /
        (totalCount s.iter.batches : ℝ) := by
    show (evalLoop s.params (s.iter.batches.drop 0) 0 0).1 /
        (evalLoop s.params (s.iter.batches.drop 0) 0 0).2 = _
    rw [List.drop_zero, evalLoop_eq]
    simp
  have hden : (0 : ℝ) < (totalCount s.iter.batches : ℝ) := by
    exact_mod_cast h
  refine ⟨hval, ?_, ?_⟩
  · rw [hval]
    exact div_nonneg (by positivity) (le_of_lt hden)
  · rw [hval]
    rw [div_le_one hden]
    exact_mod_cast totalCorrect_le_totalCount s.params s.iter.batches

/-- A concrete one-sample batch used to exercise the accuracy theorems. -/
def batch0 : Batch :=
  ⟨1, fun _ _ => 0, fun _ => 0⟩

/-- A concrete program state: zero parameters, a one-batch iterator. -/
def state0 : ProgState :=
  ⟨⟨fun _ _ => 0, fun _ => 0⟩, ⟨[batch0], 0⟩⟩

/-- Witness for C3 at the concrete state `state0`. -/
theorem evaluate_accuracy_exact_fraction_witness :
    0 < totalCount state0.iter.batches ∧
    (0 ≤ (evaluate_accuracy state0).1 ∧ (evaluate_accuracy state0).1 ≤ 1) :=
  ⟨by decide, (evaluate_accuracy_exact_fraction state0 (by decide)).2⟩

/-- C8: `evaluate_accuracy` leaves the parameters unchanged: the weight
matrix and bias vector are exactly the same after the call as before it, for
every iterator state and every starting parameters. -/
theorem evaluate_accuracy_preserves_params (s : ProgState) :
    (evaluate_accuracy s).2.params = s.params := rfl

/-- C10: `evaluate_accuracy` resets the iterator before iterating, so its
value does not depend on the cursor position at call time; in particular two
consecutive calls on the same state return equal values. -/
theorem evaluate_accuracy_cursor_independent (s : ProgState) :
    (∀ c : ℕ, (evaluate_accuracy ⟨s.params, ⟨s.iter.batches, c⟩⟩).1 =
      (evaluate_accuracy s).1) ∧
    (evaluate_accuracy ((evaluate_accuracy s).2)).1 = (evaluate_accuracy s).1 :=
  ⟨fun _ => rfl, rfl⟩

/-- The moving-loss recurrence as the claim states it: the first batch's mean
loss, then `0.99 * previous + 0.01 * current` for each subsequent batch. -/
def movingSpec (l0 : ℝ) (ls : List ℝ) : ℝ :=
  ls.foldl (fun m l => 0.99 * m + 0.01 * l) l0

/-- The sequence of `nd.mean(loss)` values along one epoch's trajectory: each
batch's loss is computed on the parameters produced by the updates of the
earlier batches. -/
def epochLosses (step : Parameters → Batch → Parameters)
    (lossOf : Parameters → Batch → ℝ) :
    Parameters → List Batch → List ℝ
  | _, [] => []
  | p, B :: rest => lossOf p B :: epochLosses step lossOf (step p B) rest

lemma epochLoop_snd_of_ne_zero (step : Parameters → Batch → Parameters)
    (lossOf : Parameters → Batch → ℝ) :
    ∀ (bs : List Batch) (i : ℕ) (p : Parameters) (ml : ℝ), i ≠ 0 →
      (epochLoop step lossOf i p ml bs).2 =
        movingSpec ml (epochLosses step lossOf p bs) := by
  intro bs
  induction bs with
  | nil => intro i p ml _; rfl
  | cons B rest ih =>
      intro i p ml hi
      show (epochLoop step lossOf (i + 1) (step p B)
        (if i = 0 then lossOf p B else 0.99 * ml + 0.01 * lossOf p B) rest).2 = _
      rw [if_neg hi, ih (i + 1) (step p B) _ (Nat.succ_ne_zero i)]
      rfl

/-- C7: in both training loops the moving loss starts at `0` before training;
the first batch of every epoch sets it to that batch's `nd.mean(loss)` value
(whatever it was before), and every subsequent batch replaces it by
`0.99 * previous + 0.01 * current`: the moving loss at the end of an epoch is
exactly the claimed recurrence applied to the epoch's loss trajectory. -/
theorem moving_loss_recurrence :
    (∀ (e : ℕ) (p : Parameters) (bs : List Batch),
      trainUnreg e p bs = runEpochs stepUnreg lossUnreg e p 0 bs) ∧
    (∀ (lam : ℝ) (e : ℕ) (p : Parameters) (bs : List Batch),
      trainReg lam e p bs = runEpochs (stepReg lam) (lossReg lam) e p 0 bs) ∧
    (∀ (p : Parameters) (ml : ℝ) (B : Batch) (rest : List Batch),
      (epochLoop stepUnreg lossUnreg 0 p ml (B :: rest)).2 =
        movingSpec (lossUnreg p B)
          (epochLosses stepUnreg lossUnreg (stepUnreg p B) rest)) ∧
    (∀ (lam : ℝ) (p : Parameters) (ml : ℝ) (B : Batch) (rest : List Batch),
      (epochLoop (stepReg lam) (lossReg lam) 0 p ml (B :: rest)).2 =
        movingSpec (lossReg lam p B)
          (epochLosses (stepReg lam) (lossReg lam) ((stepReg lam) p B) rest)) := by
  refine ⟨fun _ _ _ => rfl, fun _ _ _ _ => rfl, ?_, ?_⟩
  · intro p ml B rest
    show (epochLoop stepUnreg lossUnreg 1 (stepUnreg p B)
      (if 0 = 0 then lossUnreg p B else _) rest).2 = _
    rw [if_pos rfl]
    exact epochLoop_snd_of_ne_zero stepUnreg lossUnreg rest 1 _ _ one_ne_zero
  · intro lam p ml B rest
    show (epochLoop (stepReg lam) (lossReg lam) 1 ((stepReg lam) p B)
      (if 0 = 0 then lossReg lam p B else _) rest).2 = _
    rw [if_pos rfl]
    exact epochLoop_snd_of_ne_zero (stepReg lam) (lossReg lam) rest 1 _ _ one_ne_zero

/-- The accuracy value `evaluate_accuracy` computes on a freshly constructed
iterator over `bs` with the parameters `p`. -/
def accValue (bs : List Batch) (p : Parameters) : ℝ :=
  (evaluate_accuracy ⟨p, ⟨bs, 0⟩⟩).1

/-- Modelled from the spec: `mx.random.seed(1)` makes every subsequent draw
of mxnet's PRNG (library code, absent from the repository) a deterministic
function of the seed; one pseudo-random value per seed and draw index. -/
def prngVal (seed i : ℕ) : ℝ :=
  (((seed + 1) * 2654435761 + i * 40503) % 65536 : ℕ)

/-- Modelled from the spec: the `nd.random_normal` initialization of `W` and
`b` as a deterministic function of the global seed. -/
def initParams (seed : ℕ) : Parameters :=
  ⟨fun k j => prngVal seed (k.val * 10 + j.val),
   fun j => prngVal seed (7840 + j.val)⟩

/-- Modelled from the spec: the iterator's `shuffle=True` ordering, fixed at
construction as a deterministic function of the seed. -/
def shuffleBatches (seed : ℕ) (bs : List Batch) : List Batch :=
  bs.rotate (seed % (bs.length + 1))

/-- The observable behaviour of one unregularized training run (learning rate
`0.001`, `lam = 0`): `RunRel trainBs testBs e p ml tr` holds when running `e`
epochs from parameters `p` and moving loss `ml` emits, per epoch, the tuple
(moving loss, train accuracy, test accuracy) recorded in `tr`; the loop
evaluates the test set and then the training set after each epoch. -/
inductive RunRel (trainBs testBs : List Batch) :
    ℕ → Parameters → ℝ → List (ℝ × ℝ × ℝ) → Prop
  | done (p : Parameters) (ml : ℝ) : RunRel trainBs testBs 0 p ml []
  | step (e : ℕ) (p : Parameters) (ml : ℝ) (p' : Parameters)
      (ml' tAcc trAcc : ℝ) (tr : List (ℝ × ℝ × ℝ))
      (hstep : epochLoop stepUnreg lossUnreg 0 p ml trainBs = (p', ml'))
      (ht : tAcc = accValue testBs p')
      (htr : trAcc = accValue trainBs p')
      (hrest : RunRel trainBs testBs e p' ml' tr) :
      RunRel trainBs testBs (e + 1) p ml ((ml', trAcc, tAcc) :: tr)

lemma RunRel_functional (trainBs testBs : List Batch) :
    ∀ (e : ℕ) (p : Parameters) (ml : ℝ) (tr₁ tr₂ : List (ℝ × ℝ × ℝ)),
      RunRel trainBs testBs e p ml tr₁ → RunRel trainBs testBs e p ml tr₂ →
      tr₁ = tr₂ := by
  intro e
  induction e with
  | zero =>
      intro p ml tr₁ tr₂ h₁ h₂
      cases h₁
      cases h₂
      rfl
  | succ e ih =>
      intro p ml tr₁ tr₂ h₁ h₂
      cases h₁ with
      | step _ _ _ p₁ ml₁ tAcc₁ trAcc₁ rest₁ hstep₁ ht₁ htr₁ hrest₁ =>
        cases h₂ with
        | step _ _ _ p₂ ml₂ tAcc₂ trAcc₂ rest₂ hstep₂ ht₂ htr₂ hrest₂ =>
          have hpair : p₁ = p₂ ∧ ml₁ = ml₂ := by
            have := hstep₁.symm.trans hstep₂
            exact ⟨congrArg Prod.fst this, congrArg Prod.snd this⟩
          obtain ⟨hp, hml⟩ := hpair
          subst hp
          subst hml
          subst ht₁
          subst ht₂
          subst htr₁
          subst htr₂
          rw [ih p₁ ml₁ rest₁ rest₂ hrest₁ hrest₂]

/-- C9: with a fixed random seed (which fixes the initial parameters and the
shuffled batch order) and fixed hyperparameters (learning rate `0.001`,
`lam = 0`, a fixed epoch count), two runs of the training loop emit identical
sequences of moving loss, train accuracy, and test accuracy. -/
theorem training_run_deterministic (seed : ℕ) (dTrain dTest : List Batch)
    (e : ℕ) (tr₁ tr₂ : List (ℝ × ℝ × ℝ))
    (h₁ : RunRel (shuffleBatches seed dTrain) (shuffleBatches seed dTest) e
            (initParams seed) 0 tr₁)
    (h₂ : RunRel (shuffleBatches seed dTrain) (shuffleBatches seed dTest) e
            (initParams seed) 0 tr₂) :
    tr₁ = tr₂ :=
  RunRel_functional (shuffleBatches seed dTrain) (shuffleBatches seed dTest)
    e (initParams seed) 0 tr₁ tr₂ h₁ h₂

/-- Witness for C9: a zero-epoch run from seed `1` relates only to the empty
trace, and the determinism theorem applies to two such runs. -/
theorem training_run_deterministic_witness :
    ([] : List (ℝ × ℝ × ℝ)) = [] :=
  training_run_deterministic 1 [] [] 0 [] []
    (RunRel.done (initParams 1) 0) (RunRel.done (initParams 1) 0)

end

end MXReg
